import Mathlib

/-!
Verification of the `timing` package of barista (virtualizable timing and
scheduling facility) against its natural-language specification.

The repository sources available here contain the package's test file
(`timing/testmode_test.go`) together with external collaborators; the
implementation files of the `timing` package itself are not present.  All
definitions below are therefore modelled from the specification
(spec.md §3–§4), with the behaviour pinned down by the package's own test
file wherever the two disagree (the tests are the repository's code and
hence authoritative).

Modelling conventions:
- `Instant` and `Duration` are `Int` (a count of some fixed time unit;
  the tests use seconds, minutes or milliseconds — the model is
  unit-agnostic).
- The single-slot fire channel of a scheduler is an `Option Int` slot plus
  a count of currently blocked readers and a count of fires handed off
  directly to blocked readers (spec §4.2, including the test-mode
  hand-off exception).
- The simulated driver is a state record: virtual `now`, pause flag, a
  persistent store of every scheduler ever created (callers keep handles),
  the registry of scheduler ids registered since the last `TestMode`
  reset, and a log of the instants of all fires posted, in order.
- Pause semantics follow `TestPauseResume_TestMode`: while paused a due
  scheduler is marked `deferred` and re-armed one period forward (no fire
  is posted); `resume()` posts one fire per deferred scheduler at the
  resume instant and leaves `next_fire` at its accrued value.
-/

/-- Modelled from the spec: a Scheduler (spec §3) of the missing `timing`
package.  `nextFire`/`period` are the arming state; `deferred` marks a fire
that elapsed while the driver was paused; `blocked`, `delivered` and `slot`
make up the single-slot coalescing fire channel of §4.2 (`blocked` = number
of readers currently blocked on `tick()`, `delivered` = number of fires
handed off directly to blocked readers, `slot` = pending coalesced fire). -/
structure Sched where
  nextFire : Option Int
  period : Option Int
  deferred : Bool
  blocked : Nat
  delivered : Nat
  slot : Option Int
deriving DecidableEq, Repr

/-- A freshly created, idle scheduler (`NewScheduler`). -/
def Sched.idle : Sched :=
  ⟨none, none, false, 0, 0, none⟩

/-- Modelled from the spec: posting one fire with instant `t` into the fire
channel (spec §4.2).  If a reader is blocked, the fire is handed off
directly to it; otherwise it is coalesced into the single slot
(latest-wins timestamp). -/
def Sched.post (s : Sched) (t : Int) : Sched :=
  if 0 < s.blocked then
    { s with blocked := s.blocked - 1, delivered := s.delivered + 1 }
  else
    { s with slot := some t }

/-- Whether the scheduler is due at instant `T` (armed with
`next_fire ≤ T`). -/
def Sched.due (s : Sched) (T : Int) : Bool :=
  match s.nextFire with
  | some t => decide (t ≤ T)
  | none => false

/-- Modelled from the spec: one elapse of a due scheduler at instant `t`.
Unpaused: post the fire and re-arm (`next_fire = t + p` for periodics,
disarm for one-shots, spec §4.3).  Paused: mark the fire deferred instead
of posting it, and re-arm the same way, so that at most one deferred fire
accrues over a pause (spec §4.4 `pause`). -/
def Sched.elapse (paused : Bool) (t : Int) (s : Sched) : Sched :=
  let s' := if paused then { s with deferred := true } else s.post t
  match s.period with
  | some p => { s' with nextFire := some (t + p) }
  | none => { s' with nextFire := none }

/-- One non-blocking read from the fire channel (`<-sch.Tick()` with a
`default` escape in the tests): take the pending fire out of the slot if
there is one. -/
def Sched.tryRead (s : Sched) : Option Int × Sched :=
  match s.slot with
  | some t => (some t, { s with slot := none })
  | none => (none, s)

/-- Modelled from the spec: the simulated driver (spec §4.4).  `store`
keeps every scheduler ever created, keyed by its `subscription_id`
(callers hold handles even after a registry reset); `reg` is the registry
of ids registered since the last `TestMode` reset; `log` records the
instant of every fire posted, in posting order. -/
structure TimingState where
  now : Int
  paused : Bool
  store : List (Nat × Sched)
  reg : List Nat
  nextId : Nat
  log : List Int
deriving DecidableEq, Repr

/-- Look a scheduler up by id in a store. -/
def findSched : List (Nat × Sched) → Nat → Option Sched
  | [], _ => none
  | e :: es, i => if e.1 = i then some e.2 else findSched es i

/-- Pointwise, key-preserving update of a store. -/
def mapStore (l : List (Nat × Sched)) (f : Nat → Sched → Sched) :
    List (Nat × Sched) :=
  l.map (fun e => (e.1, f e.1 e.2))

/-- Look a scheduler up by id in the driver state. -/
def lookupSched (st : TimingState) (i : Nat) : Option Sched :=
  findSched st.store i

/-- The `next_fire` instants of all armed registered schedulers. -/
def dueList (st : TimingState) : List Int :=
  st.reg.filterMap (fun i => (lookupSched st i).bind (·.nextFire))

/-- The registered ids due at instant `T`. -/
def dueIds (st : TimingState) (T : Int) : List Nat :=
  st.reg.filter (fun i =>
    match lookupSched st i with
    | some s => s.due T
    | none => false)

/-- Minimum of a list of instants. -/
def listMin : List Int → Option Int
  | [] => none
  | x :: xs =>
    match listMin xs with
    | none => some x
    | some m => some (min x m)

/-- Modelled from the spec: advance virtual `now` to `T` and fire (or, when
paused, defer) every registered scheduler whose `next_fire ≤ T`
(spec §4.4: ties fire together in the same step). -/
def fireAt (st : TimingState) (T : Int) : TimingState :=
  { st with
    now := T
    store := mapStore st.store (fun i s =>
      if st.reg.contains i && s.due T then s.elapse st.paused T else s)
    log := st.log ++ (if st.paused then [] else (dueIds st T).map (fun _ => T)) }

/-- Modelled from the spec: `next_tick()` (spec §4.4).  Selects the minimum
`next_fire` over all armed registered schedulers, advances `now` to that
instant (never backwards), fires every scheduler due then, and returns the
new state.  If no scheduler is armed the state — in particular `now` — is
unchanged. -/
def nextTick (st : TimingState) : TimingState :=
  match listMin (dueList st) with
  | none => st
  | some m => fireAt st (max st.now m)

/-- The loop of `advance_by` (spec §4.4): repeatedly jump to the earliest
armed `next_fire` not beyond the target and fire the batch due there,
recomputing the queue after each batch; when nothing is due any more, set
`now` to the target.  `fuel` bounds the number of iterations; `advanceBy`
supplies enough fuel for every reachable state (periods are positive, so
each iteration strictly increases the earliest armed `next_fire`). -/
def advanceLoop : Nat → TimingState → Int → TimingState
  | 0, st, target => { st with now := max st.now target }
  | fuel + 1, st, target =>
    match listMin (dueList st) with
    | none => { st with now := max st.now target }
    | some m =>
      if m ≤ target then advanceLoop fuel (fireAt st (max st.now m)) target
      else { st with now := max st.now target }

/-- Modelled from the spec: `advance_by(d)` (spec §4.4). -/
def advanceBy (st : TimingState) (d : Int) : TimingState :=
  advanceLoop (st.reg.length + d.toNat + 2) st (st.now + d)

/-- Modelled from the spec: `pause()` (spec §4.4).  Idempotent. -/
def pause (st : TimingState) : TimingState :=
  { st with paused := true }

/-- Modelled from the spec: `resume()` (spec §4.4), with the accrual
behaviour pinned by `TestPauseResume_TestMode`: every scheduler with a
deferred fire gets exactly one fire posted at the resume instant
(coalesced per scheduler), the deferred mark is cleared, and `next_fire`
keeps the value accrued during the pause.  A no-op when not paused. -/
def resume (st : TimingState) : TimingState :=
  if st.paused then
    { st with
      paused := false
      store := mapStore st.store (fun i s =>
        if st.reg.contains i && s.deferred then
          { s.post st.now with deferred := false }
        else s)
      log := st.log ++
        (st.reg.filter (fun i =>
          match lookupSched st i with
          | some s => s.deferred
          | none => false)).map (fun _ => st.now) }
  else st

/-- Modelled from the spec: entering (or re-entering) test mode
(`TestMode()`, spec §4.4 `reset_test_mode`): the registry is dropped, `now`
is reset to the platform instant `t0`, pause state is cleared.  Schedulers
created earlier stay in the store (their handles survive) but are
orphaned. -/
def testMode (st : TimingState) (t0 : Int) : TimingState :=
  { st with now := t0, paused := false, reg := [], log := [] }

/-- The state of a fresh process entering test mode at platform instant
`t0`. -/
def initState (t0 : Int) : TimingState :=
  ⟨t0, false, [], [], 0, []⟩

/-- Modelled from the spec: `NewScheduler()` in simulated mode — creates an
idle scheduler and registers it; returns the state and the new handle. -/
def newScheduler (st : TimingState) : TimingState × Nat :=
  ({ st with
      store := st.store ++ [(st.nextId, Sched.idle)]
      reg := st.reg ++ [st.nextId]
      nextId := st.nextId + 1 },
   st.nextId)

/-- Update one scheduler in the driver state by id. -/
def updateSched (st : TimingState) (i : Nat) (f : Sched → Sched) :
    TimingState :=
  { st with store := mapStore st.store (fun j s => if j = i then f s else s) }

/-- Modelled from the spec: `Scheduler::after(d)` — arm one-shot at
`now + d` (spec §4.3), replacing any prior arming. -/
def afterDur (st : TimingState) (i : Nat) (d : Int) : TimingState :=
  updateSched st i (fun s =>
    { s with nextFire := some (st.now + d), period := none, deferred := false })

/-- Modelled from the spec: `Scheduler::at(t)` — arm one-shot at `t`
(spec §4.3). -/
def atInstant (st : TimingState) (i : Nat) (t : Int) : TimingState :=
  updateSched st i (fun s =>
    { s with nextFire := some t, period := none, deferred := false })

/-- The state change performed by a successful `Scheduler::every(p)`:
periodic arming with `next_fire = now + p`, `period = p` (spec §4.3). -/
def everyP (st : TimingState) (i : Nat) (p : Int) : TimingState :=
  updateSched st i (fun s =>
    { s with nextFire := some (st.now + p), period := some p, deferred := false })

/-- Modelled from the spec: `Scheduler::every(p)` — `p ≤ 0` is a programmer
error rejected loudly (spec §4.4 failure semantics, §7); `none` models the
panic. -/
def every (st : TimingState) (i : Nat) (p : Int) : Option TimingState :=
  if p ≤ 0 then none else some (everyP st i p)

/-- Modelled from the spec: `Scheduler::stop()` — disarm, clearing
`next_fire`, `period` and any deferred fire (state machine of §4.4:
`Deferred --stop--> Idle`); a fire already pending in the slot is kept
(spec §4.3). -/
def stop (st : TimingState) (i : Nat) : TimingState :=
  updateSched st i (fun s =>
    { s with nextFire := none, period := none, deferred := false })

/-- Whether a blocked-reader-free consumer would observe a pending fire on
scheduler `i` (the tests' `assertTriggered`). -/
def triggered (st : TimingState) (i : Nat) : Bool :=
  match lookupSched st i with
  | some s => s.slot.isSome
  | none => false

/-- Consume the pending fire of scheduler `i`, if any (the read performed
by the tests' `assertTriggered`). -/
def consume (st : TimingState) (i : Nat) : TimingState :=
  updateSched st i (fun s => (s.tryRead).2)

/-- Modelled from the spec: `n` additional consumers blocking on
`Scheduler::tick()` before any fire (spec §4.2 / §8 scenario 4). -/
def subscribeN (st : TimingState) (i : Nat) (n : Nat) : TimingState :=
  updateSched st i (fun s => { s with blocked := s.blocked + n })

/-- Posting a sequence of fires into one scheduler's channel. -/
def postN (s : Sched) (ts : List Int) : Sched :=
  ts.foldl Sched.post s

/-- The driver calls a test exercises between observations: `next_tick()`
and `advance_by(d)`. -/
inductive Act where
  | tick : Act
  | adv : Int → Act
deriving DecidableEq, Repr

/-- One driver call. -/
def stepAct (st : TimingState) : Act → TimingState
  | .tick => nextTick st
  | .adv d => advanceBy st d

/-- A sequence of driver calls. -/
def run (st : TimingState) : List Act → TimingState
  | [] => st
  | a :: as => run (stepAct st a) as

/-! ### Basic lemmas about the store and the minimum -/

theorem findSched_mapStore (l : List (Nat × Sched)) (f : Nat → Sched → Sched)
    (i : Nat) :
    findSched (mapStore l f) i = (findSched l i).map (f i) := by
  induction l with
  | nil => rfl
  | cons e es ih =>
    by_cases h : e.1 = i
    · simp [mapStore, findSched, h]
    · simp [mapStore, findSched, h] at ih ⊢
      exact ih

theorem listMin_eq_none {l : List Int} : listMin l = none ↔ l = [] := by
  cases l with
  | nil => simp [listMin]
  | cons x xs =>
    simp only [listMin]
    cases listMin xs <;> simp

theorem listMin_le {l : List Int} {m x : Int} (hm : listMin l = some m)
    (hx : x ∈ l) : m ≤ x := by
  induction l generalizing m with
  | nil => cases hx
  | cons y ys ih =>
    cases h : listMin ys with
    | none =>
      have hys : ys = [] := listMin_eq_none.mp h
      subst hys
      simp [listMin] at hm
      simp at hx
      omega
    | some m' =>
      simp [listMin, h] at hm
      rcases List.mem_cons.mp hx with rfl | hx'
      · omega
      · have := ih h hx'
        omega

theorem listMin_mem {l : List Int} {m : Int} (hm : listMin l = some m) :
    m ∈ l := by
  induction l generalizing m with
  | nil => cases hm
  | cons y ys ih =>
    cases h : listMin ys with
    | none =>
      simp [listMin, h] at hm
      simp [hm]
    | some m' =>
      simp [listMin, h] at hm
      rcases le_total y m' with hy | hy
      · have : m = y := by rw [← hm]; omega
        simp [this]
      · have : m = m' := by rw [← hm]; omega
        right
        exact ih (this ▸ h)

/-! ### Claim theorems, first batch -/

/-- Claim C9: calling `every(p)` with `p ≤ 0` is a programmer error that is
rejected loudly (the model returns `none`, standing for the panic), never
silently accepted: `every` fails exactly when `p ≤ 0`. -/
theorem every_nonpositive_rejected (st : TimingState) (i : Nat) (p : Int) :
    every st i p = none ↔ p ≤ 0 := by
  unfold every
  by_cases h : p ≤ 0 <;> simp [h]

theorem postN_delivered_blocked (s : Sched) (ts : List Int) :
    (postN s ts).delivered = s.delivered + min s.blocked ts.length ∧
    (postN s ts).blocked = s.blocked - ts.length := by
  induction ts generalizing s with
  | nil => simp [postN]
  | cons t ts ih =>
    have hstep : postN s (t :: ts) = postN (s.post t) ts := rfl
    rw [hstep]
    rcases ih (s.post t) with ⟨hd, hb⟩
    by_cases h : 0 < s.blocked
    · rw [hd, hb]
      simp [Sched.post, h]
      omega
    · rw [hd, hb]
      have hb0 : s.blocked = 0 := by omega
      simp [Sched.post, h, hb0]

/-- The 60-pre-subscribed-consumers scenario of
`TestAdvanceWithRepeated_TestMode`: `every(1s)`, 60 consumers blocked on
`tick()` before any fire, then `advance_by(60s)`. -/
def sixtyConsumers : TimingState :=
  advanceBy (subscribeN (everyP (newScheduler (initState 0)).1 0 1) 0 60) 60

/-- Claim C3: with N readers blocked on a scheduler's `tick()` when M fires
happen, min(N, M) fires are delivered directly to blocked readers
(coalescing applies only to fires with no blocked reader); in particular in
the 60-consumer scenario all 60 consumers wake exactly once
(`delivered = 60`, no reader left blocked, nothing left in the slot). -/
theorem blocked_reader_handoff :
    (∀ (s : Sched) (ts : List Int),
      (postN s ts).delivered = s.delivered + min s.blocked ts.length) ∧
    lookupSched sixtyConsumers 0 =
      some ⟨some 61, some 1, false, 0, 60, none⟩ := by
  constructor
  · exact fun s ts => (postN_delivered_blocked s ts).1
  · decide

/-! ### The pause/resume scenario of `TestPauseResume_TestMode`
(instants in seconds, virtual start at 0; scheduler 0 and scheduler 1 are
both armed `every(1min)` after `Pause()`). -/

def pauseS0 : TimingState := initState 0

def pauseS1 : TimingState := (newScheduler (pause pauseS0)).1

def pauseS2 : TimingState := everyP pauseS1 0 60

def pauseS3 : TimingState := everyP (newScheduler pauseS2).1 1 60

def pauseS4 : TimingState := nextTick pauseS3

def pauseS5 : TimingState := nextTick pauseS4

def pauseS6 : TimingState := nextTick pauseS5

def pauseS7 : TimingState := advanceBy pauseS6 30

def pauseS8 : TimingState := resume pauseS7

def pauseS9 : TimingState := consume (consume pauseS8 0) 1

def pauseS10 : TimingState := nextTick pauseS9

/-- Claim C1, counterexample: in the pause scenario forced by
`TestPauseResume_TestMode`, `resume()` happens at instant 210 with
`p = 60`, exactly one fire is delivered per scheduler at resume — but the
fire following the resume fire occurs at instant 240, not at
`resume + p = 270`: `resume` does not re-arm the periodic scheduler with
`next_fire = now() + period`. -/
theorem pause_accrual_cex :
    pauseS7.paused = true ∧
    pauseS8.now = 210 ∧
    triggered pauseS8 0 = true ∧
    triggered pauseS9 0 = false ∧
    pauseS10.now = 240 ∧
    triggered pauseS10 0 = true ∧
    (lookupSched pauseS10 0).map (·.slot) = some (some 240) ∧
    ¬ (240 : Int) = 210 + 60 := by
  decide

/-- Claim C1, amended: for `every(p)` paused over a duration covering
`D > p`, exactly one (coalesced) fire per deferred scheduler is posted at
`resume()`, at the resume instant; but `resume` leaves `next_fire` at the
value accrued during the pause (one period per elapse) instead of
re-arming with `now() + period`, so the fire following the resume fire
occurs at the accrued `next_fire`, which can be sooner than `resume + p`.
The first conjunct characterises `resume` per scheduler: one post at the
resume instant for a deferred scheduler, `deferred` cleared, `nextFire`
and `period` untouched; the remaining conjuncts pin the scenario of
`TestPauseResume_TestMode`, where the accrued `next_fire` is 240 while
`resume + p = 270`. -/
theorem pause_accrual_amended (st : TimingState) (i : Nat) (s : Sched)
    (hp : st.paused = true) (hl : lookupSched st i = some s) :
    ((resume st).paused = false ∧
      lookupSched (resume st) i =
        some (if st.reg.contains i && s.deferred then
                { s.post st.now with deferred := false }
              else s)) ∧
    (pauseS8.now = 210 ∧ triggered pauseS8 0 = true ∧
      triggered pauseS8 1 = true ∧ triggered pauseS9 0 = false ∧
      (lookupSched pauseS8 0).map (·.nextFire) = some (some 240) ∧
      pauseS10.now = 240 ∧ triggered pauseS10 0 = true) := by
  refine ⟨⟨?_, ?_⟩, by decide⟩
  · simp [resume, hp]
  · have hl' : findSched st.store i = some s := hl
    simp [resume, hp, lookupSched, findSched_mapStore, hl']

/-- Witness for `pause_accrual_amended`, at the paused state of the
scenario itself. -/
theorem pause_accrual_amended_wit :
    pauseS7.paused = true ∧
    lookupSched pauseS7 0 = some ⟨some 240, some 60, true, 0, 0, none⟩ ∧
    ((resume pauseS7).paused = false ∧
      lookupSched (resume pauseS7) 0 =
        some (if pauseS7.reg.contains 0 &&
                (⟨some 240, some 60, true, 0, 0, none⟩ : Sched).deferred then
                { (⟨some 240, some 60, true, 0, 0, none⟩ : Sched).post
                    pauseS7.now with deferred := false }
              else ⟨some 240, some 60, true, 0, 0, none⟩)) := by
  refine ⟨by decide, by decide, ?_⟩
  exact (pause_accrual_amended pauseS7 0 ⟨some 240, some 60, true, 0, 0, none⟩
    (by decide) (by decide)).1

/-- Claim C10: a scheduler armed with `every(p)` while the driver is
already paused (scheduler 1 in the scenario, armed after `Pause()`) is
registered and deferred like any other: it delivers no fire while paused
even as `next_tick`/`advance_by` move virtual time past several multiples
of `p` (three one-minute ticks plus `advance_by(30s)`), and it delivers
exactly one fire when `resume()` is called. -/
theorem armed_while_paused :
    triggered pauseS4 1 = false ∧ triggered pauseS5 1 = false ∧
    triggered pauseS6 1 = false ∧ triggered pauseS7 1 = false ∧
    pauseS4.now = 60 ∧ pauseS5.now = 120 ∧ pauseS6.now = 180 ∧
    pauseS7.now = 210 ∧
    triggered pauseS8 1 = true ∧
    (lookupSched pauseS8 1).map (·.slot) = some (some 210) ∧
    triggered pauseS9 1 = false := by
  decide

/-! ### Preservation lemmas: driver steps only touch registered, armed
schedulers -/

theorem fireAt_lookup (st : TimingState) (T : Int) (i : Nat) :
    lookupSched (fireAt st T) i =
      (lookupSched st i).map (fun s =>
        if st.reg.contains i && s.due T then s.elapse st.paused T else s) := by
  simp [fireAt, lookupSched, findSched_mapStore]

theorem lookup_updateSched_self (st : TimingState) (i : Nat)
    (f : Sched → Sched) :
    lookupSched (updateSched st i f) i = (lookupSched st i).map f := by
  simp [updateSched, lookupSched, findSched_mapStore]

theorem fireAt_lookup_unreg (st : TimingState) (T : Int) (i : Nat)
    (h : st.reg.contains i = false) :
    lookupSched (fireAt st T) i = lookupSched st i := by
  have h' : ¬ i ∈ st.reg := by simpa using h
  rw [fireAt_lookup]
  cases hl : lookupSched st i <;> simp [h']

theorem fireAt_lookup_idle (st : TimingState) (T : Int) (i : Nat)
    (h : ∀ s, lookupSched st i = some s → s.nextFire = none) :
    lookupSched (fireAt st T) i = lookupSched st i := by
  rw [fireAt_lookup]
  cases hl : lookupSched st i with
  | none => rfl
  | some s =>
    have hidle := h s hl
    simp [Sched.due, hidle]

theorem fireAt_reg (st : TimingState) (T : Int) :
    (fireAt st T).reg = st.reg := rfl

theorem nextTick_reg (st : TimingState) : (nextTick st).reg = st.reg := by
  unfold nextTick
  cases listMin (dueList st) <;> rfl

theorem advanceLoop_reg (fuel : Nat) (st : TimingState) (target : Int) :
    (advanceLoop fuel st target).reg = st.reg := by
  induction fuel generalizing st with
  | zero => rfl
  | succ fuel ih =>
    unfold advanceLoop
    cases listMin (dueList st) with
    | none => rfl
    | some m =>
      by_cases h : m ≤ target
      · simp only [h, if_true]
        rw [ih]
        rfl
      · simp only [h, if_false]

theorem stepAct_reg (st : TimingState) (a : Act) :
    (stepAct st a).reg = st.reg := by
  cases a with
  | tick => exact nextTick_reg st
  | adv d => exact advanceLoop_reg _ st _

theorem run_reg (st : TimingState) (acts : List Act) :
    (run st acts).reg = st.reg := by
  induction acts generalizing st with
  | nil => rfl
  | cons a as ih => rw [run, ih, stepAct_reg]

theorem nextTick_lookup_unreg (st : TimingState) (i : Nat)
    (h : st.reg.contains i = false) :
    lookupSched (nextTick st) i = lookupSched st i := by
  unfold nextTick
  cases listMin (dueList st) with
  | none => rfl
  | some m => exact fireAt_lookup_unreg st _ i h

theorem advanceLoop_lookup_unreg (fuel : Nat) (st : TimingState)
    (target : Int) (i : Nat) (h : st.reg.contains i = false) :
    lookupSched (advanceLoop fuel st target) i = lookupSched st i := by
  induction fuel generalizing st with
  | zero => rfl
  | succ fuel ih =>
    unfold advanceLoop
    cases listMin (dueList st) with
    | none => rfl
    | some m =>
      by_cases hm : m ≤ target
      · simp only [hm, if_true]
        rw [ih _ (by rw [fireAt_reg]; exact h), fireAt_lookup_unreg st _ i h]
      · simp only [hm, if_false]
        rfl

theorem stepAct_lookup_unreg (st : TimingState) (a : Act) (i : Nat)
    (h : st.reg.contains i = false) :
    lookupSched (stepAct st a) i = lookupSched st i := by
  cases a with
  | tick => exact nextTick_lookup_unreg st i h
  | adv d => exact advanceLoop_lookup_unreg _ st _ i h

theorem run_lookup_unreg (st : TimingState) (acts : List Act) (i : Nat)
    (h : st.reg.contains i = false) :
    lookupSched (run st acts) i = lookupSched st i := by
  induction acts generalizing st with
  | nil => rfl
  | cons a as ih =>
    rw [run, ih _ (by rw [stepAct_reg]; exact h), stepAct_lookup_unreg st a i h]

theorem nextTick_lookup_idle (st : TimingState) (i : Nat)
    (h : ∀ s, lookupSched st i = some s → s.nextFire = none) :
    lookupSched (nextTick st) i = lookupSched st i := by
  unfold nextTick
  cases listMin (dueList st) with
  | none => rfl
  | some m => exact fireAt_lookup_idle st _ i h

theorem advanceLoop_lookup_idle (fuel : Nat) (st : TimingState)
    (target : Int) (i : Nat)
    (h : ∀ s, lookupSched st i = some s → s.nextFire = none) :
    lookupSched (advanceLoop fuel st target) i = lookupSched st i := by
  induction fuel generalizing st with
  | zero => rfl
  | succ fuel ih =>
    unfold advanceLoop
    cases listMin (dueList st) with
    | none => rfl
    | some m =>
      by_cases hm : m ≤ target
      · simp only [hm, if_true]
        have hstep := fireAt_lookup_idle st (max st.now m) i h
        rw [ih _ (by rw [hstep]; exact h), hstep]
      · simp only [hm, if_false]
        rfl

theorem stepAct_lookup_idle (st : TimingState) (a : Act) (i : Nat)
    (h : ∀ s, lookupSched st i = some s → s.nextFire = none) :
    lookupSched (stepAct st a) i = lookupSched st i := by
  cases a with
  | tick => exact nextTick_lookup_idle st i h
  | adv d => exact advanceLoop_lookup_idle _ st _ i h

theorem run_lookup_idle (st : TimingState) (acts : List Act) (i : Nat)
    (h : ∀ s, lookupSched st i = some s → s.nextFire = none) :
    lookupSched (run st acts) i = lookupSched st i := by
  induction acts generalizing st with
  | nil => rfl
  | cons a as ih =>
    have hstep := stepAct_lookup_idle st a i h
    rw [run, ih _ (by rw [hstep]; exact h), hstep]

/-! ### The reset scenario of `TestTestModeReset` (seconds; first test-mode
entry at instant 0, re-entry at platform instant 100).  Scheduler 0 is
created before the reset, scheduler 1 after it. -/

def resetS0 : TimingState := everyP (newScheduler (initState 0)).1 0 1

def resetS1 : TimingState := consume (nextTick resetS0) 0

def resetS2 : TimingState := consume (nextTick resetS1) 0

def resetS3 : TimingState := nextTick (pause resetS2)

def resetS4 : TimingState := testMode resetS3 100

def resetS5 : TimingState := everyP (newScheduler resetS4).1 1 60

def resetS6 : TimingState := nextTick resetS5

def resetS7 : TimingState := nextTick (consume resetS6 1)

/-- Claim C6: re-entering test mode orphans every scheduler created before
the reset.  Generally, a scheduler not in the registry is never touched by
any sequence of `next_tick`/`advance_by` calls (so it never fires again);
and in the replay of `TestTestModeReset`, after the reset the registry
holds only the new scheduler 1, the two subsequent `next_tick` calls fire
scheduler 1 at `100 + 1min` and `100 + 2min` while the orphaned scheduler
0 stays bit-for-bit unchanged. -/
theorem test_mode_reset_orphans (st : TimingState) (i : Nat)
    (acts : List Act) (h : st.reg.contains i = false) :
    lookupSched (run st acts) i = lookupSched st i ∧
    (resetS4.reg = [] ∧
      resetS5.reg = [1] ∧
      resetS6.now = 160 ∧ triggered resetS6 1 = true ∧
      triggered resetS6 0 = false ∧
      lookupSched resetS6 0 = lookupSched resetS4 0 ∧
      resetS7.now = 220 ∧ triggered resetS7 1 = true ∧
      triggered resetS7 0 = false ∧
      lookupSched resetS7 0 = lookupSched resetS4 0) := by
  exact ⟨run_lookup_unreg st acts i h, by decide⟩

/-- Witness for `test_mode_reset_orphans`: the orphaned scheduler 0 of the
reset scenario is untouched by two further `next_tick` calls. -/
theorem test_mode_reset_orphans_wit :
    resetS5.reg.contains 0 = false ∧
    lookupSched (run resetS5 [Act.tick, Act.tick]) 0 = lookupSched resetS5 0 :=
  ⟨by decide,
   (test_mode_reset_orphans resetS5 0 [Act.tick, Act.tick] (by decide)).1⟩

/-! ### The stop scenario at the end of `TestRepeating_TestMode`
(seconds): schedulers 0 `every(1min)` and 1 `every(10min)`, ten ticks,
then both stopped. -/

def repS0 : TimingState :=
  everyP (everyP (newScheduler (newScheduler (initState 0)).1).1 0 60) 1 600

def repS1 : TimingState := run repS0 (List.replicate 10 Act.tick)

def repS2 : TimingState := stop (stop repS1 0) 1

/-- Claim C7: after `stop()` on a scheduler, no subsequent sequence of
`next_tick`/`advance_by` calls ever changes it again (in particular it
produces no further fires) until it is re-armed; and when no registered
scheduler is armed any more, `next_tick()` leaves the whole state — in
particular `now` — unchanged. -/
theorem stop_no_further_fires (st st2 : TimingState) (i : Nat)
    (acts : List Act) (h2 : dueList st2 = []) :
    lookupSched (run (stop st i) acts) i = lookupSched (stop st i) i ∧
    nextTick st2 = st2 := by
  constructor
  · refine run_lookup_idle (stop st i) acts i ?_
    intro s hs
    rw [stop, lookup_updateSched_self] at hs
    cases hl : lookupSched st i with
    | none => rw [hl] at hs; cases hs
    | some s0 =>
      rw [hl] at hs
      simp at hs
      rw [← hs]
  · unfold nextTick
    rw [h2]
    rfl

/-- Witness for `stop_no_further_fires`: in the `TestRepeating_TestMode`
replay, after both schedulers are stopped at `now = 600`, a tick and an
`advance_by` leave scheduler 0 unchanged, and `next_tick` on the
fully-stopped state is the identity (`now` stays 600). -/
theorem stop_no_further_fires_wit :
    dueList repS2 = [] ∧
    (lookupSched (run (stop (stop repS1 0) 1) [Act.tick, Act.adv 60]) 1 =
        lookupSched (stop (stop repS1 0) 1) 1 ∧
      nextTick repS2 = repS2) :=
  ⟨by decide,
   stop_no_further_fires (stop repS1 0) repS2 1 [Act.tick, Act.adv 60]
     (by decide)⟩

/-! ### Earliest-first selection -/

theorem nextFire_mem_dueList (st : TimingState) (i : Nat) (s : Sched)
    (t : Int) (hi : i ∈ st.reg) (hl : lookupSched st i = some s)
    (ht : s.nextFire = some t) : t ∈ dueList st := by
  unfold dueList
  rw [List.mem_filterMap]
  refine ⟨i, hi, ?_⟩
  rw [hl]
  simpa using ht

/-- Claim C2: on any state with armed registered schedulers and the driver
not paused, one `next_tick()` call advances the virtual `now` to the
minimum armed `next_fire` `m` (and returns it), fires exactly the
schedulers attaining that minimum — every scheduler with
`next_fire = m` is elapsed (fire posted, periodics re-armed) in the same
step, and every other scheduler is left exactly as it was. -/
theorem next_tick_earliest_first (st : TimingState) (m : Int)
    (hp : st.paused = false)
    (hm : listMin (dueList st) = some m)
    (hnow : st.now ≤ m) :
    (nextTick st).now = m ∧
    ∀ i s, i ∈ st.reg → lookupSched st i = some s →
      lookupSched (nextTick st) i =
        some (if s.nextFire = some m then s.elapse false m else s) := by
  have hnt : nextTick st = fireAt st m := by
    unfold nextTick
    rw [hm]
    show fireAt st (max st.now m) = fireAt st m
    rw [max_eq_right hnow]
  constructor
  · rw [hnt]
    rfl
  · intro i s hi hl
    rw [hnt, fireAt_lookup, hl, hp]
    cases hnf : s.nextFire with
    | none => simp [Sched.due, hnf, hi]
    | some t =>
      by_cases htm : t = m
      · subst htm
        simp [Sched.due, hnf, hi]
      · have hge : m ≤ t := listMin_le hm (nextFire_mem_dueList st i s t hi hl hnf)
        have hnle : ¬ t ≤ m := by omega
        simp [Sched.due, hnf, hi, hnle, htm]

/-- The armed state of `TestTiming_TestMode`: three schedulers armed
`after(1h)`, `after(1s)`, `after(1min)` at virtual instant 0. -/
def threeShot : TimingState :=
  atInstant
    (afterDur
      (afterDur (newScheduler (newScheduler (newScheduler (initState 0)).1).1).1
        0 3600)
      1 1)
    2 60

/-- Witness for `next_tick_earliest_first`: on the `TestTiming_TestMode`
state the minimum is 1s; the tick advances `now` to 1 and elapses
scheduler 1 (the `after(1s)` one). -/
theorem next_tick_earliest_first_wit :
    (nextTick threeShot).now = 1 ∧
    lookupSched (nextTick threeShot) 1 =
      some (if (⟨some 1, none, false, 0, 0, none⟩ : Sched).nextFire = some 1
            then Sched.elapse false 1 ⟨some 1, none, false, 0, 0, none⟩
            else ⟨some 1, none, false, 0, 0, none⟩) :=
  ⟨(next_tick_earliest_first threeShot 1 (by decide) (by decide) (by decide)).1,
   (next_tick_earliest_first threeShot 1 (by decide) (by decide) (by decide)).2
     1 ⟨some 1, none, false, 0, 0, none⟩ (by decide) (by decide)⟩

/-! ### Monotonicity of the virtual clock and of fire instants -/

/-- `monoLog a l b`: the instants of `l` are non-decreasing, bounded below
by `a` and above by `b`. -/
def monoLog : Int → List Int → Int → Prop
  | a, [], b => a ≤ b
  | a, x :: xs, b => a ≤ x ∧ monoLog x xs b

theorem monoLog_le {a b : Int} {l : List Int} (h : monoLog a l b) :
    a ≤ b := by
  induction l generalizing a with
  | nil => exact h
  | cons x xs ih => exact le_trans h.1 (ih h.2)

theorem monoLog_weaken {a a' b : Int} {l : List Int} (ha : a' ≤ a)
    (h : monoLog a l b) : monoLog a' l b := by
  cases l with
  | nil => exact le_trans ha h
  | cons x xs => exact ⟨le_trans ha h.1, h.2⟩

theorem monoLog_glue {a b c : Int} {l m : List Int}
    (h1 : monoLog a l b) (h2 : monoLog b m c) : monoLog a (l ++ m) c := by
  induction l generalizing a with
  | nil => exact monoLog_weaken h1 h2
  | cons x xs ih => exact ⟨h1.1, ih h1.2⟩

theorem monoLog_all_eq {a T : Int} (l : List Int) (hl : ∀ x ∈ l, x = T)
    (ha : a ≤ T) : monoLog a l T := by
  induction l generalizing a with
  | nil => exact ha
  | cons x xs ih =>
    have hx : x = T := hl x (by simp)
    refine ⟨hx ▸ ha, ?_⟩
    rw [hx]
    exact ih (fun y hy => hl y (by simp [hy])) (le_refl T)

theorem fireAt_mono (st : TimingState) (T : Int) (h : st.now ≤ T) :
    (fireAt st T).now = T ∧
    ∃ ext, (fireAt st T).log = st.log ++ ext ∧ monoLog st.now ext T := by
  refine ⟨rfl, (if st.paused then [] else (dueIds st T).map (fun _ => T)),
    rfl, ?_⟩
  by_cases hp : st.paused
  · simpa [hp] using h
  · simp only [hp, if_false]
    refine monoLog_all_eq _ ?_ h
    intro x hx
    rcases List.mem_map.mp hx with ⟨a, _, rfl⟩
    rfl

theorem nextTick_mono (st : TimingState) :
    st.now ≤ (nextTick st).now ∧
    ∃ ext, (nextTick st).log = st.log ++ ext ∧
      monoLog st.now ext (nextTick st).now := by
  unfold nextTick
  cases hm : listMin (dueList st) with
  | none => exact ⟨le_refl _, [], by simp, le_refl _⟩
  | some m =>
    show st.now ≤ (fireAt st (max st.now m)).now ∧ _
    obtain ⟨hn, ext, hl, hmono⟩ :=
      fireAt_mono st (max st.now m) (le_max_left _ _)
    rw [hn]
    exact ⟨le_max_left _ _, ext, hl, hmono⟩

theorem advanceLoop_mono (fuel : Nat) (st : TimingState) (target : Int) :
    st.now ≤ (advanceLoop fuel st target).now ∧
    ∃ ext, (advanceLoop fuel st target).log = st.log ++ ext ∧
      monoLog st.now ext (advanceLoop fuel st target).now := by
  induction fuel generalizing st with
  | zero =>
    show st.now ≤ max st.now target ∧ _
    exact ⟨le_max_left _ _, [], by simp [advanceLoop], le_max_left _ _⟩
  | succ fuel ih =>
    show st.now ≤ (advanceLoop (fuel + 1) st target).now ∧ _
    unfold advanceLoop
    cases hm : listMin (dueList st) with
    | none => exact ⟨le_max_left _ _, [], by simp, le_max_left _ _⟩
    | some m =>
      by_cases hmt : m ≤ target
      · simp only [hmt, if_true]
        obtain ⟨hn1, e1, hl1, hm1⟩ :=
          fireAt_mono st (max st.now m) (le_max_left _ _)
        obtain ⟨hn2, e2, hl2, hm2⟩ := ih (fireAt st (max st.now m))
        refine ⟨?_, e1 ++ e2, ?_, ?_⟩
        · exact le_trans (hn1 ▸ le_max_left st.now m) hn2
        · rw [hl2, hl1, List.append_assoc]
        · exact monoLog_glue (hn1 ▸ hm1) hm2
      · simp only [hmt, if_false]
        exact ⟨le_max_left _ _, [], by simp, le_max_left _ _⟩

theorem stepAct_mono (st : TimingState) (a : Act) :
    st.now ≤ (stepAct st a).now ∧
    ∃ ext, (stepAct st a).log = st.log ++ ext ∧
      monoLog st.now ext (stepAct st a).now := by
  cases a with
  | tick => exact nextTick_mono st
  | adv d => exact advanceLoop_mono _ st _

/-- Claim C8: the virtual clock is monotonic.  After any sequence of
`next_tick`/`advance_by` calls, `now` is non-decreasing, and the log of
fire instants produced during the sequence is itself non-decreasing,
bounded below by the starting `now` and above by the final `now` — so no
fire is ever produced at an instant earlier than a previously produced
fire instant. -/
theorem virtual_clock_monotonic (st : TimingState) (acts : List Act) :
    st.now ≤ (run st acts).now ∧
    ∃ ext, (run st acts).log = st.log ++ ext ∧
      monoLog st.now ext (run st acts).now := by
  induction acts generalizing st with
  | nil => exact ⟨le_refl _, [], by simp [run], le_refl _⟩
  | cons a as ih =>
    obtain ⟨hn1, e1, hl1, hm1⟩ := stepAct_mono st a
    obtain ⟨hn2, e2, hl2, hm2⟩ := ih (stepAct st a)
    refine ⟨le_trans hn1 hn2, e1 ++ e2, ?_, ?_⟩
    · rw [run, hl2, hl1, List.append_assoc]
    · exact monoLog_glue hm1 hm2

/-! ### Periodic cadence and coalescing on a single periodic scheduler -/

/-- One scheduler armed `every(p)` at virtual instant `t0`
(`TestRepeating_TestMode` / `TestCoalescedUpdates_TestMode` setup). -/
def singlePeriodic (t0 p : Int) : TimingState :=
  everyP (newScheduler (initState t0)).1 0 p

/-- Closed form of the driver state after the single periodic scheduler
has fired `k` times with no consumer read: `now = t0 + k*p`, the scheduler
re-armed at `t0 + (k+1)*p`, the slot holding the latest fire instant
(coalesced), and the log holding the `k` fire instants. -/
def cadenceState (t0 p : Int) (k : Nat) : TimingState :=
  ⟨t0 + (k : Int) * p, false,
   [(0, ⟨some (t0 + ((k : Int) + 1) * p), some p, false, 0, 0,
         if k = 0 then none else some (t0 + (k : Int) * p)⟩)],
   [0], 1, (List.range k).map (fun j => t0 + ((j : Int) + 1) * p)⟩

theorem singlePeriodic_eq (t0 p : Int) :
    singlePeriodic t0 p = cadenceState t0 p 0 := by
  simp [singlePeriodic, cadenceState, everyP, newScheduler, initState,
    updateSched, mapStore, Sched.idle]

theorem dueList_cadence (t0 p : Int) (k : Nat) :
    dueList (cadenceState t0 p k) = [t0 + ((k : Int) + 1) * p] := by
  simp [dueList, cadenceState, lookupSched, findSched]

theorem fireAt_cadence (t0 p : Int) (k : Nat) :
    fireAt (cadenceState t0 p k) (t0 + ((k : Int) + 1) * p) =
      cadenceState t0 p (k + 1) := by
  simp [fireAt, cadenceState, mapStore, dueIds, lookupSched, findSched,
    Sched.due, Sched.elapse, Sched.post, List.range_succ]
  ring

theorem nextTick_cadence (t0 p : Int) (hp : 0 < p) (k : Nat) :
    nextTick (cadenceState t0 p k) = cadenceState t0 p (k + 1) := by
  unfold nextTick
  rw [dueList_cadence]
  show fireAt (cadenceState t0 p k)
      (max (cadenceState t0 p k).now (t0 + ((k : Int) + 1) * p)) =
    cadenceState t0 p (k + 1)
  have hmax : max (cadenceState t0 p k).now (t0 + ((k : Int) + 1) * p) =
      t0 + ((k : Int) + 1) * p := by
    show max (t0 + (k : Int) * p) (t0 + ((k : Int) + 1) * p) = _
    apply max_eq_right
    nlinarith
  rw [hmax, fireAt_cadence]

theorem run_ticks_cadence (t0 p : Int) (hp : 0 < p) (k : Nat) :
    ∀ j, run (cadenceState t0 p j) (List.replicate k Act.tick) =
      cadenceState t0 p (j + k) := by
  induction k with
  | zero => intro j; rfl
  | succ k ih =>
    intro j
    rw [List.replicate_succ, run]
    show run (nextTick (cadenceState t0 p j)) (List.replicate k Act.tick) = _
    rw [nextTick_cadence t0 p hp j, ih (j + 1)]
    congr 1
    omega

/-- Claim C4: for `every(p)` armed at `t0`, with no pause and no coarse
`advance_by`, after `k` calls to `next_tick` the virtual clock is at
`t0 + k*p`, and the fires produced are exactly one per tick, the `j`-th
(1-based) at instant `t0 + j*p` — so the `k`-th fire occurs exactly at
`t0 + k*p` for every `k ≥ 1`. -/
theorem periodic_cadence (t0 p : Int) (hp : 0 < p) (k : Nat) :
    (run (singlePeriodic t0 p) (List.replicate k Act.tick)).now =
      t0 + (k : Int) * p ∧
    (run (singlePeriodic t0 p) (List.replicate k Act.tick)).log =
      (List.range k).map (fun j => t0 + ((j : Int) + 1) * p) := by
  rw [singlePeriodic_eq, run_ticks_cadence t0 p hp k 0, Nat.zero_add]
  exact ⟨rfl, rfl⟩

/-- Witness for `periodic_cadence` at `t0 = 5`, `p = 7`, three ticks. -/
theorem periodic_cadence_wit :
    (0 : Int) < 7 ∧
    ((run (singlePeriodic 5 7) (List.replicate 3 Act.tick)).now =
        5 + (3 : Int) * 7 ∧
      (run (singlePeriodic 5 7) (List.replicate 3 Act.tick)).log =
        (List.range 3).map (fun j => 5 + ((j : Int) + 1) * 7)) :=
  ⟨by decide, periodic_cadence 5 7 (by decide) 3⟩

theorem advanceLoop_single_stop (fuel : Nat) (st : TimingState)
    (target v : Int) (hd : dueList st = [v]) (hv : ¬ v ≤ target) :
    advanceLoop (fuel + 1) st target = { st with now := max st.now target } := by
  conv_lhs => unfold advanceLoop
  rw [hd, show listMin [v] = some v from rfl]
  simp [hv]

theorem advanceLoop_single_step (fuel : Nat) (st : TimingState)
    (target v : Int) (hd : dueList st = [v]) (hv : v ≤ target) :
    advanceLoop (fuel + 1) st target =
      advanceLoop fuel (fireAt st (max st.now v)) target := by
  conv_lhs => unfold advanceLoop
  rw [hd, show listMin [v] = some v from rfl]
  simp [hv]

theorem advanceLoop_cadence (t0 p : Int) (hp : 0 < p) (n : Nat) :
    ∀ fuel j, j ≤ n → n - j < fuel →
      advanceLoop fuel (cadenceState t0 p j) (t0 + (n : Int) * p) =
        cadenceState t0 p n := by
  intro fuel
  induction fuel with
  | zero =>
    intro j hj hf
    omega
  | succ fuel ih =>
    intro j hj hf
    by_cases hjn : j = n
    · subst hjn
      have hgt : ¬ (t0 + ((j : Int) + 1) * p ≤ t0 + (j : Int) * p) := by
        nlinarith
      rw [advanceLoop_single_stop fuel _ _ _ (dueList_cadence t0 p j) hgt]
      have hmax : max (cadenceState t0 p j).now (t0 + (j : Int) * p) =
          (cadenceState t0 p j).now := by
        show max (t0 + (j : Int) * p) (t0 + (j : Int) * p) = t0 + (j : Int) * p
        exact max_self _
      rw [hmax]
    · have hjn' : j < n := lt_of_le_of_ne hj hjn
      have hle : t0 + ((j : Int) + 1) * p ≤ t0 + (n : Int) * p := by
        have hc : ((j : Int) + 1) ≤ (n : Int) := by exact_mod_cast hjn'
        nlinarith
      rw [advanceLoop_single_step fuel _ _ _ (dueList_cadence t0 p j) hle]
      have hmax : max (cadenceState t0 p j).now (t0 + ((j : Int) + 1) * p) =
          t0 + ((j : Int) + 1) * p := by
        show max (t0 + (j : Int) * p) (t0 + ((j : Int) + 1) * p) = _
        apply max_eq_right
        nlinarith
      rw [hmax, fireAt_cadence]
      exact ih (j + 1) hjn' (by omega)

theorem advanceBy_singlePeriodic (t0 p : Int) (hp : 0 < p) (n : Nat) :
    advanceBy (singlePeriodic t0 p) ((n : Int) * p) = cadenceState t0 p n := by
  unfold advanceBy
  rw [singlePeriodic_eq]
  have htar : (cadenceState t0 p 0).now + (n : Int) * p = t0 + (n : Int) * p := by
    show t0 + ((0 : Nat) : Int) * p + (n : Int) * p = _
    push_cast
    ring
  rw [htar]
  refine advanceLoop_cadence t0 p hp n _ 0 (Nat.zero_le n) ?_
  have h1 : (n : Int) ≤ (n : Int) * p := by
    nlinarith [Int.natCast_nonneg n]
  simp [cadenceState]
  omega

/-- Claim C5: after `advance_by(n*p)` on a periodic scheduler `every(p)`
with no consumer reads in between, exactly one fire is pending in the
single-slot channel (the slot holds the coalesced latest instant
`t0 + n*p`): one read succeeds, and an immediately following read finds no
pending fire. -/
theorem coalesce_invariant (t0 p : Int) (n : Nat) (hp : 0 < p)
    (hn : 1 ≤ n) :
    (lookupSched (advanceBy (singlePeriodic t0 p) ((n : Int) * p)) 0).map
        (·.slot) = some (some (t0 + (n : Int) * p)) ∧
    triggered (advanceBy (singlePeriodic t0 p) ((n : Int) * p)) 0 = true ∧
    triggered (consume (advanceBy (singlePeriodic t0 p) ((n : Int) * p)) 0) 0
        = false := by
  rw [advanceBy_singlePeriodic t0 p hp n]
  have hn0 : ¬ n = 0 := by omega
  refine ⟨?_, ?_, ?_⟩
  · simp [cadenceState, lookupSched, findSched, hn0]
  · simp [triggered, cadenceState, lookupSched, findSched, hn0]
  · simp [triggered, consume, lookup_updateSched_self, cadenceState,
      lookupSched, findSched, Sched.tryRead, hn0]

/-- Witness for `coalesce_invariant`: the `TestCoalescedUpdates_TestMode`
numbers — `every(15ms)`, `advance_by(45ms) = advance_by(3*15ms)`. -/
theorem coalesce_invariant_wit :
    ((0 : Int) < 15 ∧ (1 : Nat) ≤ 3) ∧
    ((lookupSched (advanceBy (singlePeriodic 0 15) (((3 : Nat) : Int) * 15))
          0).map (·.slot) = some (some (0 + ((3 : Nat) : Int) * 15)) ∧
      triggered (advanceBy (singlePeriodic 0 15) (((3 : Nat) : Int) * 15)) 0
          = true ∧
      triggered
          (consume (advanceBy (singlePeriodic 0 15) (((3 : Nat) : Int) * 15))
            0) 0 = false) :=
  ⟨⟨by decide, by decide⟩, coalesce_invariant 0 15 3 (by decide) (by decide)⟩
